import Mathlib

/-!
Verification of the DipDECK core (clustpy/deep/dipdeck.py) against its
natural-language specification.  The Python functions are shallowly embedded:
numpy arrays of labels become `List ℕ`, embedded points become `List ℚ`
(exact rational arithmetic standing for the float computations), matrices
become index functions `ℕ → ℕ → ℚ`, and the external black-box interfaces
(dip test statistic, dip p-value, the autoencoder's `encode`) become function
parameters, as the spec declares them out of scope.
-/

namespace ClustPyVerify

/-! ### Merge relabeling (`_merge_by_dip_value`, dipdeck.py lines 402-414)

At call time the caller (`_dip_deck_training` line 307) has already
decremented `n_clusters_current`, so `nAfter` below is the post-merge
cluster count and the merged clusters receive id `nAfter - 1`. -/

/-- The per-label update performed by the relabeling loop of
`_merge_by_dip_value`: `a` and `b` are the two merged cluster ids
(`dip_argmax[0]`, `dip_argmax[1]`), `nAfter` is `n_clusters_current`
at call time (the post-merge count). -/
def relabelFn (a b nAfter l : ℕ) : ℕ :=
  if l = a ∨ l = b then nAfter - 1
  else if l < a ∧ l < b then l
  else if a < l ∧ b < l then l - 2
  else l - 1

/-- The relabeling pass over the whole label array (`for j, l in
enumerate(cluster_labels_cpu): ...`). -/
def mergeRelabel (labels : List ℕ) (a b nAfter : ℕ) : List ℕ :=
  labels.map (relabelFn a b nAfter)

/-- A label equal to one of the two merged ids is sent to `nAfter - 1`. -/
theorem relabelFn_merged {l a b : ℕ} (nAfter : ℕ) (h : l = a ∨ l = b) :
    relabelFn a b nAfter l = nAfter - 1 := by
  simp only [relabelFn, if_pos h]

/-- C1: for labels whose clusters `0..n-1` are all non-empty and a merge pair
`(a, b)` with `a ≠ b`, the relabeling of `_merge_by_dip_value` with post-merge
count `n - 1` sends the two merged ids to `(n-1) - 1`, shifts ids strictly
between `a` and `b` down by one, keeps ids below both unchanged, and the
resulting label set is exactly `{0, ..., n-2}`. -/
theorem mergeRelabel_contiguous (labels : List ℕ) (a b n : ℕ)
    (ha : a < n) (hb : b < n) (hab : a ≠ b)
    (hmem : ∀ l ∈ labels, l < n) (hsurj : ∀ c, c < n → c ∈ labels) :
    relabelFn a b (n - 1) a = (n - 1) - 1 ∧
    relabelFn a b (n - 1) b = (n - 1) - 1 ∧
    (∀ l, min a b < l → l < max a b → relabelFn a b (n - 1) l = l - 1) ∧
    (∀ l, l < a → l < b → relabelFn a b (n - 1) l = l) ∧
    (∀ m, m ∈ mergeRelabel labels a b (n - 1) ↔ m < n - 1) := by
  refine ⟨relabelFn_merged _ (Or.inl rfl), relabelFn_merged _ (Or.inr rfl), ?_, ?_, ?_⟩
  · intro l h1 h2; simp only [relabelFn]; split_ifs <;> omega
  · intro l h1 h2; simp only [relabelFn]; split_ifs <;> omega
  · intro m
    constructor
    · intro hm
      rcases List.mem_map.mp hm with ⟨l, hl, rfl⟩
      have hln := hmem l hl
      simp only [relabelFn]; split_ifs <;> omega
    · intro hm
      by_cases h1 : m = n - 2
      · refine List.mem_map.mpr ⟨a, hsurj a ha, ?_⟩
        rw [relabelFn_merged _ (Or.inl rfl)]; omega
      · by_cases h2 : m < a ∧ m < b
        · refine List.mem_map.mpr ⟨m, hsurj m (by omega), ?_⟩
          simp only [relabelFn]; split_ifs <;> omega
        · by_cases h3 : m + 1 < max a b
          · refine List.mem_map.mpr ⟨m + 1, hsurj (m + 1) (by omega), ?_⟩
            simp only [relabelFn]; split_ifs <;> omega
          · refine List.mem_map.mpr ⟨m + 2, hsurj (m + 2) (by omega), ?_⟩
            simp only [relabelFn]; split_ifs <;> omega

/-- Witness for `mergeRelabel_contiguous` at `labels = [0, 1, 2]`,
`a = 0`, `b = 2`, `n = 3`. -/
theorem mergeRelabel_contiguous_w :
    (0 : ℕ) < 3 ∧ (2 : ℕ) < 3 ∧ (0 : ℕ) ≠ 2 ∧
    (∀ m, m ∈ mergeRelabel [0, 1, 2] 0 2 (3 - 1) ↔ m < 3 - 1) :=
  ⟨by decide, by decide, by decide,
    (mergeRelabel_contiguous [0, 1, 2] 0 2 3 (by decide) (by decide) (by decide)
      (by decide) (by decide)).2.2.2.2⟩

/-! ### Configuration validation (`_dip_deck`, dipdeck.py lines 93-100)

```
if max_n_clusters < min_n_clusters: raise ...
if min_n_clusters <= 0: raise ...
if n_clusters_init < min_n_clusters and n_clusters_init is not None: raise ...
if dip_merge_threshold < 0 or dip_merge_threshold > 1: raise ...
```
`n_clusters_init` may be `None` (documented for self-determining initial
clustering such as DBSCAN), modelled as `Option ℤ`.  In Python 3, evaluating
`None < min_n_clusters` raises a `TypeError`; the `and` short-circuits left
to right, so the comparison runs before the `is not None` test. -/

/-- One of the exceptions the configuration check can raise:
the four explicit `Exception`s plus the `TypeError` Python raises when
`None < int` is evaluated. -/
inductive ConfigError where
  | maxLtMin | minNonpos | initLtMin | badThreshold | typeError
  deriving DecidableEq, Repr

/-- Python's `x < y` where `x : Option ℤ` is `n_clusters_init` (possibly
`None`) and `y : ℤ`: comparing `None` with an int raises `TypeError`. -/
def pyLtOptInt (x : Option ℤ) (y : ℤ) : Except ConfigError Bool :=
  match x with
  | none => .error .typeError
  | some v => .ok (decide (v < y))

/-- The validation prologue of `_dip_deck` (lines 93-100), executed before any
other computation of the run. -/
def validateDipDeck (nInit : Option ℤ) (minN maxN : ℤ) (thr : ℚ) :
    Except ConfigError Unit :=
  if maxN < minN then .error .maxLtMin
  else if minN ≤ 0 then .error .minNonpos
  else
    match pyLtOptInt nInit minN with
    | .error e => .error e
    | .ok c =>
      if c ∧ nInit ≠ none then .error .initLtMin
      else if thr < 0 ∨ 1 < thr then .error .badThreshold
      else .ok ()

/-- The start of the run: validation first, then (only on success) the
initial-clustering path, abstracted as a parameter `initClust` standing for
`run_initial_clustering` and everything after it. -/
def dipDeckStart {α : Type} (initClust : Option ℤ → α) (nInit : Option ℤ)
    (minN maxN : ℤ) (thr : ℚ) : Except ConfigError α :=
  match validateDipDeck nInit minN maxN thr with
  | .error e => .error e
  | .ok _ => .ok (initClust nInit)

/-- C7: with an integer initial cluster count, the validation prologue raises
exactly when `max_n_clusters < min_n_clusters`, or `min_n_clusters ≤ 0`, or
the initial count is below `min_n_clusters`, or `dip_merge_threshold` lies
outside `[0, 1]`; a configuration violating none of these passes. -/
theorem validateDipDeck_ok_iff (k minN maxN : ℤ) (thr : ℚ) :
    validateDipDeck (some k) minN maxN thr = .ok () ↔
      ¬(maxN < minN ∨ minN ≤ 0 ∨ k < minN ∨ thr < 0 ∨ 1 < thr) := by
  simp only [validateDipDeck, pyLtOptInt]
  split_ifs with h1 h2 <;> simp_all

/-- C10: when `n_clusters_init` is `None` and the first two checks pass, the
guard evaluates `n_clusters_init < min_n_clusters` before its `None` test, so
the run fails with a `TypeError` and never reaches the initial-clustering
path, whatever that path would compute. -/
theorem dipDeckStart_none_typeError {α : Type} (initClust : Option ℤ → α)
    (minN maxN : ℤ) (thr : ℚ) (h1 : ¬maxN < minN) (h2 : ¬minN ≤ 0) :
    dipDeckStart initClust none minN maxN thr = .error .typeError := by
  simp [dipDeckStart, validateDipDeck, pyLtOptInt, h1, h2]

/-- Witness for `dipDeckStart_none_typeError` at `minN = 1`, `maxN = 5`,
`thr = 9/10` with a concrete initial-clustering continuation. -/
theorem dipDeckStart_none_typeError_w :
    ¬(5 : ℤ) < 1 ∧ ¬(1 : ℤ) ≤ 0 ∧
    dipDeckStart (fun o => o.isSome) none 1 5 (9 / 10) = .error .typeError :=
  ⟨by decide, by decide,
    dipDeckStart_none_typeError (fun o => o.isSome) 1 5 (9 / 10)
      (by decide) (by decide)⟩

/-! ### Training-loop control flow (`_dip_deck_training`, dipdeck.py 222-355)

The loop's data-dependent operations (gradient pass plus full recompute,
the dip threshold test, the merge/delete operations, the small-cluster
test) are abstracted over an opaque training state `σ`; the control
skeleton — counter `i`, cluster count `n`, the merge `while`, the
force-merge branch, the `break` at one cluster — is modelled exactly. -/

/-- The data-dependent parts of `_dip_deck_training` consumed by its control
flow: `trainEpoch` is lines 224-293 (batch optimization plus the full-pass
recompute and dip refresh), `mergeCond` is `dip_matrix[dip_argmax] >=
dip_merge_threshold`, `mergeStep` is `_merge_by_dip_value` (lines 306-312
minus the counter bookkeeping), `smallestBelow` is `smallest_cluster_size <
0.2 * mean(cluster_sizes)`, and `deleteStep` / `forceMergeStep` are the two
arms of the force branch (lines 322-350). -/
structure LoopEnv (σ : Type) where
  trainEpoch : σ → ℕ → σ
  mergeCond : σ → Bool
  mergeStep : σ → ℕ → σ
  smallestBelow : σ → Bool
  deleteStep : σ → ℕ → σ
  forceMergeStep : σ → ℕ → σ

/-- Loop state: iteration counter `i`, current cluster count `n`, and the
opaque data state. -/
structure LoopState (σ : Type) where
  i : ℕ
  n : ℕ
  s : σ
  deriving DecidableEq

/-- The merge `while` loop (lines 299-312): while the threshold test holds
and `min_n_clusters < n`, decrement `n` and merge; the recursion is on `n`
itself, which the loop decrements (the `n = 0` case returns at once because
`minN < 0` is false in `ℕ`). -/
def mergeLoop {σ : Type} (env : LoopEnv σ) (minN : ℕ) : ℕ → σ → ℕ × σ
  | 0, s => (0, s)
  | n + 1, s =>
    if env.mergeCond s ∧ minN < n + 1 then
      mergeLoop env minN n (env.mergeStep s n)
    else (n + 1, s)

/-- One iteration of the outer `while i < clustering_epochs` loop
(lines 224-354 without the final `break` test): train, `i += 1` (line 295),
run the merge loop (which resets `i` to 0 whenever it merges, line 306), then
the force branch (lines 314-350) which resets `i` and decrements `n`. -/
def outerBody {σ : Type} (env : LoopEnv σ) (minN maxN epochs : ℕ)
    (st : LoopState σ) : LoopState σ :=
  let s1 := env.trainEpoch st.s st.n
  let i1 := st.i + 1
  let p := mergeLoop env minN st.n s1
  let i2 := if p.1 < st.n then 0 else i1
  if i2 = epochs ∧ maxN < p.1 then
    ⟨0, p.1 - 1,
      if env.smallestBelow p.2 then env.deleteStep p.2 (p.1 - 1)
      else env.forceMergeStep p.2 (p.1 - 1)⟩
  else ⟨i2, p.1, p.2⟩

/-- The outer loop with an explicit fuel bound on the number of outer
iterations: `none` means the fuel ran out before the loop exited;
`some st` is the loop's exit state, reached either through the `while`
condition `i < clustering_epochs` failing or through the `break` at
`n_clusters_current == 1` (lines 351-354). -/
def loopRun {σ : Type} (env : LoopEnv σ) (minN maxN epochs : ℕ) :
    ℕ → LoopState σ → Option (LoopState σ)
  | 0, _ => none
  | fuel + 1, st =>
    if st.i < epochs then
      if (outerBody env minN maxN epochs st).n = 1 then
        some (outerBody env minN maxN epochs st)
      else loopRun env minN maxN epochs fuel (outerBody env minN maxN epochs st)
    else some st

/-- The merge loop never increases the cluster count. -/
theorem mergeLoop_le {σ : Type} (env : LoopEnv σ) (minN : ℕ) :
    ∀ (n : ℕ) (s : σ), (mergeLoop env minN n s).1 ≤ n := by
  intro n
  induction n with
  | zero => intro s; simp [mergeLoop]
  | succ m ih =>
    intro s
    rw [mergeLoop]
    split_ifs with h
    · exact le_trans (ih _) (by omega)
    · exact le_refl _

/-- Every outer iteration either strictly decreases the cluster count or
leaves it unchanged while advancing the counter by one. -/
theorem outerBody_progress {σ : Type} (env : LoopEnv σ)
    (minN maxN epochs : ℕ) (st : LoopState σ) :
    (outerBody env minN maxN epochs st).n < st.n ∨
      ((outerBody env minN maxN epochs st).n = st.n ∧
        (outerBody env minN maxN epochs st).i = st.i + 1) := by
  have hle := mergeLoop_le env minN st.n (env.trainEpoch st.s st.n)
  simp only [outerBody]
  by_cases hlt : (mergeLoop env minN st.n (env.trainEpoch st.s st.n)).1 < st.n
  · rw [if_pos hlt]
    split_ifs with hforce <;> dsimp only <;> omega
  · rw [if_neg hlt]
    split_ifs with hforce <;> dsimp only <;> omega

/-- C2: for every valid configuration (`min_n_clusters ≥ 1`,
`max_n_clusters ≥ min_n_clusters`, initial count at least `min_n_clusters`,
finite `clustering_epochs`) and every behavior of the data-dependent
operations, the training loop exits within `n₀ * (epochs + 1) + epochs + 1`
outer iterations, even though `i` is reset to 0 after every merge and every
force-merge/deletion. -/
theorem loopRun_terminates {σ : Type} (env : LoopEnv σ)
    (minN maxN epochs : ℕ) (st : LoopState σ)
    (h1 : 1 ≤ minN) (h2 : minN ≤ maxN) (h3 : minN ≤ st.n) :
    (loopRun env minN maxN epochs
      (st.n * (epochs + 1) + (epochs + 1)) st).isSome = true := by
  clear h1 h2 h3
  suffices key : ∀ (fuel : ℕ) (st : LoopState σ),
      st.n * (epochs + 1) + (epochs - st.i) < fuel →
      (loopRun env minN maxN epochs fuel st).isSome = true by
    exact key _ st (by have : epochs - st.i ≤ epochs := Nat.sub_le _ _; omega)
  intro fuel
  induction fuel with
  | zero => intro st h; omega
  | succ f ih =>
    intro st h
    rw [loopRun]
    by_cases hi : st.i < epochs
    · rw [if_pos hi]
      by_cases hone : (outerBody env minN maxN epochs st).n = 1
      · rw [if_pos hone]; rfl
      · rw [if_neg hone]
        refine ih _ ?_
        rcases outerBody_progress env minN maxN epochs st with hlt | ⟨hn, hiEq⟩
        · have hmul : ((outerBody env minN maxN epochs st).n + 1) * (epochs + 1) ≤
              st.n * (epochs + 1) := Nat.mul_le_mul_right _ (by omega)
          rw [add_mul, one_mul] at hmul
          have hsub : epochs - (outerBody env minN maxN epochs st).i ≤ epochs :=
            Nat.sub_le _ _
          omega
        · rw [hn, hiEq]
          omega
    · rw [if_neg hi]; rfl

/-- C3: with `min_n_clusters ≤ max_n_clusters`, the cluster count never drops
below `min_n_clusters`: the merge loop preserves the floor (a threshold merge
fires only while `min_n_clusters < n`), every outer iteration preserves it (a
force merge/deletion fires only while `max_n_clusters < n`), and hence any
exit state of a run started at or above the floor satisfies
`min_n_clusters ≤ final count`. -/
theorem loopRun_min_clusters {σ : Type} (env : LoopEnv σ)
    (minN maxN epochs : ℕ) (hmm : minN ≤ maxN) :
    (∀ (n : ℕ) (s : σ), minN ≤ n → minN ≤ (mergeLoop env minN n s).1) ∧
    (∀ st : LoopState σ, minN ≤ st.n →
      minN ≤ (outerBody env minN maxN epochs st).n) ∧
    (∀ (fuel : ℕ) (st st' : LoopState σ), minN ≤ st.n →
      loopRun env minN maxN epochs fuel st = some st' → minN ≤ st'.n) := by
  have hml : ∀ (n : ℕ) (s : σ), minN ≤ n → minN ≤ (mergeLoop env minN n s).1 := by
    intro n
    induction n with
    | zero => intro s h; simpa [mergeLoop] using h
    | succ m ih =>
      intro s h
      rw [mergeLoop]
      split_ifs with hc
      · exact ih _ (by omega)
      · exact h
  have hob : ∀ st : LoopState σ, minN ≤ st.n →
      minN ≤ (outerBody env minN maxN epochs st).n := by
    intro st h
    have hg := hml st.n (env.trainEpoch st.s st.n) h
    simp only [outerBody]
    by_cases hlt : (mergeLoop env minN st.n (env.trainEpoch st.s st.n)).1 < st.n
    · rw [if_pos hlt]
      split_ifs with hforce <;> dsimp only <;> omega
    · rw [if_neg hlt]
      split_ifs with hforce <;> dsimp only <;> omega
  refine ⟨hml, hob, ?_⟩
  intro fuel
  induction fuel with
  | zero => intro st st' _ hrun; simp [loopRun] at hrun
  | succ f ih =>
    intro st st' h hrun
    rw [loopRun] at hrun
    by_cases hi : st.i < epochs
    · rw [if_pos hi] at hrun
      by_cases hone : (outerBody env minN maxN epochs st).n = 1
      · rw [if_pos hone] at hrun
        cases Option.some.inj hrun
        exact hob st h
      · rw [if_neg hone] at hrun
        exact ih _ st' (hob st h) hrun
    · rw [if_neg hi] at hrun
      cases Option.some.inj hrun
      exact h

/-- A trivial instantiation of the data-dependent operations, used to apply
the loop theorems at concrete inputs. -/
def unitEnv : LoopEnv Unit :=
  ⟨fun _ _ => (), fun _ => false, fun _ _ => (), fun _ => false,
   fun _ _ => (), fun _ _ => ()⟩

/-- Witness for `loopRun_terminates`: a concrete valid configuration
(`minN = 1`, `maxN = 2`, `epochs = 3`, two initial clusters). -/
theorem loopRun_terminates_w :
    (1 : ℕ) ≤ 1 ∧ (1 : ℕ) ≤ 2 ∧ (1 : ℕ) ≤ (LoopState.mk 0 2 ()).n ∧
    (loopRun unitEnv 1 2 3 ((LoopState.mk 0 2 ()).n * (3 + 1) + (3 + 1))
      (LoopState.mk 0 2 ())).isSome = true :=
  ⟨by decide, by decide, by decide,
    loopRun_terminates unitEnv 1 2 3 (LoopState.mk 0 2 ())
      (by decide) (by decide) (by decide)⟩

/-- Witness for `loopRun_min_clusters`: the concrete run
`loopRun unitEnv 1 2 1` from two clusters exits at `⟨1, 2, ()⟩`, and the
theorem yields the floor `1 ≤ 2` for it. -/
theorem loopRun_min_clusters_w :
    (1 : ℕ) ≤ 2 ∧ (1 : ℕ) ≤ (LoopState.mk 0 2 ()).n ∧
    loopRun unitEnv 1 2 1 5 (LoopState.mk 0 2 ()) = some (LoopState.mk 1 2 ()) ∧
    (1 : ℕ) ≤ (LoopState.mk 1 2 ()).n :=
  ⟨by decide, by decide, by decide,
    (loopRun_min_clusters unitEnv 1 2 1 (by decide)).2.2 5
      (LoopState.mk 0 2 ()) (LoopState.mk 1 2 ()) (by decide) (by decide)⟩

/-! ### Dip matrix (`_get_dip_matrix` lines 495-555, `_get_nearest_points`
lines 460-492)

The external black boxes `dip_test` and `dip_pval` become function
parameters `dipT : List ℚ → ℚ` and `dipP : ℚ → ℕ → ℚ` (statistic and sample
size to p-value; the p-value strategy, bootstrap count and random state are
absorbed into `dipP`), exactly as the spec places them out of scope. -/

/-- `np.dot` of two equal-length vectors. -/
def dotQ (u v : List ℚ) : ℚ := (List.zipWith (· * ·) u v).sum

/-- Componentwise vector difference. -/
def vsubQ (u v : List ℚ) : List ℚ := List.zipWith (· - ·) u v

/-- Squared Euclidean distance.  It appears only inside `argmin` / `argsort`
comparisons, where it orders points exactly as `cdist`'s Euclidean distance
does. -/
def sqDistQ (u v : List ℚ) : ℚ :=
  ((List.zipWith (· - ·) u v).map (fun x => x * x)).sum

/-- `embedded_data[cluster_labels == c]`: the rows whose label is `c`, in
data order. -/
def clusterPoints (emb : List (List ℚ)) (labels : List ℕ) (c : ℕ) :
    List (List ℚ) :=
  ((labels.zip emb).filter (fun q => q.1 == c)).map (fun q => q.2)

/-- The sample size chosen by `_get_nearest_points` (lines 488-490):
`size_smaller * f`, enlarged to `min(min_sample_size - size_smaller,
len(points))` when the combined count would drop below `min_sample_size`. -/
def trimSize (s f m L : ℕ) : ℕ :=
  if s + s * f < m then min (m - s) L else s * f

/-- `np.argsort(cdist(points, [center]))`: the points ordered by distance to
`center` (ascending). -/
def sortNear (pts : List (List ℚ)) (center : List ℚ) : List (List ℚ) :=
  pts.mergeSort (fun p q => decide (sqDistQ p center ≤ sqDistQ q center))

/-- `_get_nearest_points` (lines 460-492): keep the `trimSize` points of the
larger cluster nearest to the smaller cluster's center. -/
def getNearestPoints (pts : List (List ℚ)) (center : List ℚ)
    (sizeSmaller f minSampleSize : ℕ) : List (List ℚ) :=
  (sortNear pts center).take (trimSize sizeSmaller f minSampleSize pts.length)

/-- The uncorrected p-value of the pair `(i, j)` (lines 531-537): pool the
two clusters, project onto the axis `centers[i] - centers[j]`, dip-test the
projections. -/
def uncorrectedPval (dipT : List ℚ → ℚ) (dipP : ℚ → ℕ → ℚ)
    (emb cents : List (List ℚ)) (labels : List ℕ) (i j : ℕ) : ℚ :=
  let cdiff := vsubQ (cents.getD i []) (cents.getD j [])
  let proj := ((clusterPoints emb labels i) ++ (clusterPoints emb labels j)).map
    (fun p => dotQ p cdiff)
  dipP (dipT proj) proj.length

/-- The body of the double loop of `_get_dip_matrix` for one pair `i < j`
(lines 531-551): the uncorrected p-value, except that when the cluster sizes
differ by more than the factor `f`, the larger cluster is trimmed by
`_get_nearest_points` (with its default `min_sample_size = 50`) and the
minimum of the two p-values is kept. -/
def pairPval (dipT : List ℚ → ℚ) (dipP : ℚ → ℕ → ℚ) (f : ℕ)
    (emb cents : List (List ℚ)) (labels : List ℕ) (i j : ℕ) : ℚ :=
  let cdiff := vsubQ (cents.getD i []) (cents.getD j [])
  let ptsI := clusterPoints emb labels i
  let ptsJ := clusterPoints emb labels j
  let proj := (ptsI ++ ptsJ).map (fun p => dotQ p cdiff)
  let p1 := dipP (dipT proj) proj.length
  if ptsI.length > ptsJ.length * f ∨ ptsJ.length > ptsI.length * f then
    let ptsI2 := if ptsI.length > ptsJ.length * f then
        getNearestPoints ptsI (cents.getD j []) ptsJ.length f 50
      else ptsI
    let ptsJ2 := if ptsI.length > ptsJ.length * f then ptsJ
      else if ptsJ.length > ptsI.length * f then
        getNearestPoints ptsJ (cents.getD i []) ptsI.length f 50
      else ptsJ
    let proj2 := (ptsI2 ++ ptsJ2).map (fun p => dotQ p cdiff)
    min p1 (dipP (dipT proj2) proj2.length)
  else p1

/-- Point update of a matrix represented as an index function
(`dip_matrix[r][c] = v`). -/
def matUpdate (m : ℕ → ℕ → ℚ) (r c : ℕ) (v : ℚ) : ℕ → ℕ → ℚ :=
  fun r' c' => if r' = r ∧ c' = c then v else m r' c'

/-- The index pairs visited by
`for i in range(0, n - 1): for j in range(i + 1, n)`. -/
def pairIdx (n : ℕ) : List (ℕ × ℕ) :=
  (List.range (n - 1)).flatMap
    (fun i => (List.range' (i + 1) (n - 1 - i)).map (fun j => (i, j)))

/-- The fill loop of `_get_dip_matrix`: for each visited pair, store its
p-value at `(i, j)` and `(j, i)`. -/
def fillPairs (pv : ℕ → ℕ → ℚ) : List (ℕ × ℕ) → (ℕ → ℕ → ℚ) → ℕ → ℕ → ℚ
  | [], m => m
  | p :: t, m =>
    fillPairs pv t
      (matUpdate (matUpdate m p.1 p.2 (pv p.1 p.2)) p.2 p.1 (pv p.1 p.2))

/-- `_get_dip_matrix` (lines 495-555): the zero matrix with every pair
`i < j < n` filled symmetrically.  Indices at or beyond `n` keep the zero
initialization (`np.zeros((n_clusters, n_clusters))`). -/
def dipMatrix (dipT : List ℚ → ℚ) (dipP : ℚ → ℕ → ℚ) (f : ℕ)
    (emb cents : List (List ℚ)) (labels : List ℕ) (n : ℕ) : ℕ → ℕ → ℚ :=
  fillPairs (pairPval dipT dipP f emb cents labels) (pairIdx n) (fun _ _ => 0)

theorem mem_pairIdx {n i j : ℕ} : (i, j) ∈ pairIdx n ↔ i < j ∧ j < n := by
  simp only [pairIdx, List.mem_flatMap, List.mem_map, List.mem_range,
    List.mem_range'_1, Prod.mk.injEq]
  constructor
  · rintro ⟨a, ha, b, ⟨hb1, hb2⟩, rfl, rfl⟩
    omega
  · rintro ⟨h1, h2⟩
    exact ⟨i, by omega, j, ⟨by omega, by omega⟩, rfl, rfl⟩

theorem pairIdx_lt {n : ℕ} : ∀ p ∈ pairIdx n, p.1 < p.2 ∧ p.2 < n := by
  rintro ⟨i, j⟩ hp
  exact mem_pairIdx.mp hp

/-- Filling pairs with distinct components preserves matrix symmetry. -/
theorem fillPairs_symm (pv : ℕ → ℕ → ℚ) :
    ∀ (l : List (ℕ × ℕ)) (m : ℕ → ℕ → ℚ), (∀ p ∈ l, p.1 ≠ p.2) →
      (∀ i j, m i j = m j i) → ∀ i j, fillPairs pv l m i j = fillPairs pv l m j i := by
  intro l
  induction l with
  | nil => intro m _ hm i j; exact hm i j
  | cons p t ih =>
    intro m hne hm i j
    have hp := hne p (List.mem_cons_self p t)
    refine ih _ (fun q hq => hne q (List.mem_cons_of_mem _ hq)) ?_ i j
    intro i' j'
    simp only [matUpdate]
    split_ifs <;> first | rfl | exact hm i' j' | omega

/-- Filling pairs with distinct components never touches the diagonal. -/
theorem fillPairs_diag (pv : ℕ → ℕ → ℚ) :
    ∀ (l : List (ℕ × ℕ)) (m : ℕ → ℕ → ℚ), (∀ p ∈ l, p.1 ≠ p.2) →
      ∀ i, fillPairs pv l m i i = m i i := by
  intro l
  induction l with
  | nil => intro m _ i; rfl
  | cons p t ih =>
    intro m hne i
    have hp := hne p (List.mem_cons_self p t)
    rw [fillPairs, ih _ (fun q hq => hne q (List.mem_cons_of_mem _ hq))]
    simp only [matUpdate]
    split_ifs <;> first | rfl | omega

/-- Filling pairs below `n` never touches cells at or beyond `n`. -/
theorem fillPairs_outside (pv : ℕ → ℕ → ℚ) (n : ℕ) :
    ∀ (l : List (ℕ × ℕ)) (m : ℕ → ℕ → ℚ), (∀ p ∈ l, p.1 < n ∧ p.2 < n) →
      ∀ i j, n ≤ i ∨ n ≤ j → fillPairs pv l m i j = m i j := by
  intro l
  induction l with
  | nil => intro m _ i j _; rfl
  | cons p t ih =>
    intro m hlt i j hout
    have hp := hlt p (List.mem_cons_self p t)
    rw [fillPairs, ih _ (fun q hq => hlt q (List.mem_cons_of_mem _ hq)) i j hout]
    simp only [matUpdate]
    split_ifs <;> first | rfl | omega

/-- A cell `(i, j)` with `i < j` whose pair is not in the list keeps its
value: the mirrored write of any pair `p.1 < p.2` targets a cell with row
above column. -/
theorem fillPairs_notMem (pv : ℕ → ℕ → ℚ) :
    ∀ (l : List (ℕ × ℕ)) (m : ℕ → ℕ → ℚ) (i j : ℕ), i < j →
      (∀ p ∈ l, p.1 < p.2) → (i, j) ∉ l → fillPairs pv l m i j = m i j := by
  intro l
  induction l with
  | nil => intro m i j _ _ _; rfl
  | cons p t ih =>
    intro m i j hij hlt hm
    have hp := hlt p (List.mem_cons_self p t)
    rw [fillPairs, ih _ i j hij (fun q hq => hlt q (List.mem_cons_of_mem _ hq))
      (fun hc => hm (List.mem_cons_of_mem _ hc))]
    simp only [matUpdate]
    split_ifs with h1 h2
    · omega
    · exact absurd (List.mem_cons_self p t)
        (by rw [show p = (i, j) from Prod.ext h2.1.symm h2.2.symm] at hm ⊢; exact hm)
    · rfl

/-- A cell `(i, j)` with `i < j` whose pair is in the list holds `pv i j`. -/
theorem fillPairs_mem (pv : ℕ → ℕ → ℚ) :
    ∀ (l : List (ℕ × ℕ)) (m : ℕ → ℕ → ℚ) (i j : ℕ), i < j →
      (∀ p ∈ l, p.1 < p.2) → (i, j) ∈ l → fillPairs pv l m i j = pv i j := by
  intro l
  induction l with
  | nil => intro m i j _ _ hmem; cases hmem
  | cons p t ih =>
    intro m i j hij hlt hmem
    by_cases hmt : (i, j) ∈ t
    · exact ih _ i j hij (fun q hq => hlt q (List.mem_cons_of_mem _ hq)) hmt
    · have hpij : p = (i, j) := by
        rcases List.mem_cons.mp hmem with h | h
        · exact h.symm
        · exact absurd h hmt
      subst hpij
      rw [fillPairs, fillPairs_notMem pv t _ i j hij
        (fun q hq => hlt q (List.mem_cons_of_mem _ hq)) hmt]
      simp only [matUpdate]
      rw [if_neg (by omega), if_pos (by trivial)]

/-- C4: for every embedding/labels/centers configuration and every behavior
of the external dip test and p-value functions, the matrix returned by
`_get_dip_matrix` is symmetric, has zero diagonal, and is zero outside the
`n × n` range. -/
theorem dipMatrix_symm_zero_diag (dipT : List ℚ → ℚ) (dipP : ℚ → ℕ → ℚ)
    (f : ℕ) (emb cents : List (List ℚ)) (labels : List ℕ) (n : ℕ) :
    (∀ i j, dipMatrix dipT dipP f emb cents labels n i j =
      dipMatrix dipT dipP f emb cents labels n j i) ∧
    (∀ i, dipMatrix dipT dipP f emb cents labels n i i = 0) ∧
    (∀ i j, n ≤ i ∨ n ≤ j → dipMatrix dipT dipP f emb cents labels n i j = 0) := by
  refine ⟨?_, ?_, ?_⟩
  · exact fillPairs_symm _ _ _ (fun p hp => Nat.ne_of_lt (pairIdx_lt p hp).1)
      (fun _ _ => rfl)
  · exact fun i => fillPairs_diag _ _ _
      (fun p hp => Nat.ne_of_lt (pairIdx_lt p hp).1) i
  · exact fun i j h => fillPairs_outside _ n _ _
      (fun p hp => ⟨lt_trans (pairIdx_lt p hp).1 (pairIdx_lt p hp).2,
        (pairIdx_lt p hp).2⟩) i j h

/-- C5: for a pair `(i, j)` that triggers the size-imbalance correction, the
value stored in the dip matrix is exactly the pair's p-value, and that
p-value — the minimum of the uncorrected and the trimmed p-value — never
exceeds the uncorrected p-value of the pair. -/
theorem dipMatrix_corrected_le (dipT : List ℚ → ℚ) (dipP : ℚ → ℕ → ℚ)
    (f : ℕ) (emb cents : List (List ℚ)) (labels : List ℕ) (n i j : ℕ)
    (hij : i < j) (hjn : j < n)
    (htrig : (clusterPoints emb labels i).length >
        (clusterPoints emb labels j).length * f ∨
      (clusterPoints emb labels j).length >
        (clusterPoints emb labels i).length * f) :
    dipMatrix dipT dipP f emb cents labels n i j =
      pairPval dipT dipP f emb cents labels i j ∧
    pairPval dipT dipP f emb cents labels i j ≤
      uncorrectedPval dipT dipP emb cents labels i j := by
  constructor
  · exact fillPairs_mem _ _ _ i j hij (fun p hp => (pairIdx_lt p hp).1)
      (mem_pairIdx.mpr ⟨hij, hjn⟩)
  · simp only [pairPval, uncorrectedPval]
    rw [if_pos htrig]
    exact min_le_left _ _

/-- Witness for `dipMatrix_corrected_le`: four 1-D points, labels
`[0, 0, 0, 1]`, factor 2 — cluster 0 has 3 points, more than `2 × 1`. -/
theorem dipMatrix_corrected_le_w :
    (0 : ℕ) < 1 ∧ (1 : ℕ) < 2 ∧
    ((clusterPoints [[0], [1], [2], [9]] [0, 0, 0, 1] 0).length >
        (clusterPoints [[0], [1], [2], [9]] [0, 0, 0, 1] 1).length * 2 ∨
      (clusterPoints [[0], [1], [2], [9]] [0, 0, 0, 1] 1).length >
        (clusterPoints [[0], [1], [2], [9]] [0, 0, 0, 1] 0).length * 2) ∧
    pairPval (fun l => (l.length : ℚ)) (fun s m => s + m) 2
        [[0], [1], [2], [9]] [[1], [9]] [0, 0, 0, 1] 0 1 ≤
      uncorrectedPval (fun l => (l.length : ℚ)) (fun s m => s + m)
        [[0], [1], [2], [9]] [[1], [9]] [0, 0, 0, 1] 0 1 :=
  ⟨by decide, by decide, by decide,
    (dipMatrix_corrected_le (fun l => (l.length : ℚ)) (fun s m => s + m) 2
      [[0], [1], [2], [9]] [[1], [9]] [0, 0, 0, 1] 2 0 1
      (by decide) (by decide) (by decide)).2⟩

/-- Transitivity of the Boolean distance comparison used by `sortNear`. -/
theorem sortNearLe_trans (center : List ℚ) :
    ∀ a b c : List ℚ,
      (decide (sqDistQ a center ≤ sqDistQ b center)) = true →
      (decide (sqDistQ b center ≤ sqDistQ c center)) = true →
      (decide (sqDistQ a center ≤ sqDistQ c center)) = true := by
  intro a b c h1 h2
  simp only [decide_eq_true_eq] at *
  exact le_trans h1 h2

/-- Totality of the Boolean distance comparison used by `sortNear`. -/
theorem sortNearLe_total (center : List ℚ) :
    ∀ a b : List ℚ,
      ((decide (sqDistQ a center ≤ sqDistQ b center)) ||
        (decide (sqDistQ b center ≤ sqDistQ a center))) = true := by
  intro a b
  simp only [Bool.or_eq_true, decide_eq_true_eq]
  exact le_total _ _

/-- C6: when a pair triggers the size-imbalance correction (`s * f < L` with
`s` the smaller cluster's size and `L` the larger cluster's point count),
`_get_nearest_points` keeps only points of the larger cluster, each kept
point no farther from the smaller cluster's center than every dropped point;
without the floor it keeps exactly the `s * f` nearest points, and in every
case the combined retained count (smaller cluster plus trimmed larger
cluster) is at least `min(min_sample_size, s + L)`. -/
theorem getNearestPoints_spec (pts : List (List ℚ)) (center : List ℚ)
    (s f m : ℕ) (htrig : s * f < pts.length) :
    (∀ x ∈ getNearestPoints pts center s f m, x ∈ pts) ∧
    (m ≤ s + s * f → (getNearestPoints pts center s f m).length = s * f) ∧
    (min m (s + pts.length) ≤ s + (getNearestPoints pts center s f m).length) ∧
    (∀ x ∈ getNearestPoints pts center s f m,
      ∀ y ∈ (sortNear pts center).drop (trimSize s f m pts.length),
        sqDistQ x center ≤ sqDistQ y center) := by
  have hlen : (sortNear pts center).length = pts.length := by
    simp [sortNear, List.length_mergeSort]
  refine ⟨?_, ?_, ?_, ?_⟩
  · intro x hx
    simp only [getNearestPoints] at hx
    exact (List.mergeSort_perm pts _).subset (List.mem_of_mem_take hx)
  · intro hm
    simp only [getNearestPoints, List.length_take, hlen, trimSize]
    rw [if_neg (by omega)]
    omega
  · simp only [getNearestPoints, List.length_take, hlen, trimSize]
    split_ifs with hfloor <;> omega
  · have hsorted := @List.sorted_mergeSort (List ℚ)
      (fun p q => decide (sqDistQ p center ≤ sqDistQ q center))
      (sortNearLe_trans center) (sortNearLe_total center) pts
    rw [show pts.mergeSort (fun p q => decide (sqDistQ p center ≤ sqDistQ q center)) =
      sortNear pts center from rfl] at hsorted
    rw [← List.take_append_drop (trimSize s f m pts.length) (sortNear pts center)]
      at hsorted
    have hcross := (List.pairwise_append.mp hsorted).2.2
    intro x hx y hy
    simp only [getNearestPoints] at hx
    exact of_decide_eq_true (hcross x hx y hy)

/-- Witness for `getNearestPoints_spec`: three 1-D points, smaller size 1,
factor 2, the default floor 50. -/
theorem getNearestPoints_spec_w :
    (1 * 2 : ℕ) < ([[0], [1], [2]] : List (List ℚ)).length ∧
    min 50 (1 + ([[0], [1], [2]] : List (List ℚ)).length) ≤
      1 + (getNearestPoints [[0], [1], [2]] [0] 1 2 50).length :=
  ⟨by decide,
    (getNearestPoints_spec [[0], [1], [2]] [0] 1 2 50 (by decide)).2.2.1⟩

/-! ### Full-pass recompute (lines 277-283 and
`_get_nearest_points_to_optimal_centers`, lines 433-457)

The autoencoder is fixed (no optimizer step), so `encode` is a parameter
`e : List ℚ → List ℚ`. -/

/-- `np.argmin` over a list of values: index of the first minimum (numpy
returns the first occurrence on ties). -/
def argminAux : List ℚ → ℕ → ℕ → ℚ → ℕ
  | [], _, bi, _ => bi
  | x :: t, idx, bi, bv =>
    if x < bv then argminAux t (idx + 1) idx x else argminAux t (idx + 1) bi bv

/-- Index of the first minimum of a list of values (0 for the empty list). -/
def argminIdx : List ℚ → ℕ
  | [] => 0
  | x :: t => argminAux t 1 0 x

/-- `np.argmin(cdist(embedded_centers, embedded_data), axis=0)` (line 280):
for every sample, the index of the nearest embedded center, where the
embedded centers are `autoencoder.encode(centers)` (line 279). -/
def assignLabels (e : List ℚ → List ℚ) (X : List (List ℚ))
    (centers : List (List ℚ)) : List ℕ :=
  (X.map e).map (fun p => argminIdx ((centers.map e).map (fun c => sqDistQ c p)))

/-- `np.mean(..., axis=0)` of a set of vectors of dimension `dim`. -/
def meanVec (dim : ℕ) (pts : List (List ℚ)) : List ℚ :=
  (List.range dim).map
    (fun d => (pts.map (fun p => p.getD d 0)).sum / (pts.length : ℚ))

/-- Lines 281-282: the per-cluster means of the embedded members, for
clusters `0 .. k-1`. -/
def optimalCenters (emb : List (List ℚ)) (labels : List ℕ) (k : ℕ) :
    List (List ℚ) :=
  (List.range k).map
    (fun c => meanVec ((emb.headD []).length) (clusterPoints emb labels c))

/-- `_get_nearest_points_to_optimal_centers` (lines 433-457): snap each
optimal center to the nearest embedded data point and return the
corresponding original-space rows. -/
def snapToData (X emb : List (List ℚ)) (optimal : List (List ℚ)) :
    List (List ℚ) :=
  (optimal.map (fun oc => argminIdx (emb.map (fun p => sqDistQ oc p)))).map
    (fun k => X.getD k [])

/-- One full-pass recompute with a fixed autoencoder (lines 277-283): encode
the data and the current centers, reassign every sample to its nearest
embedded center, average each cluster, snap each average to the nearest real
data point. -/
def recompute (e : List ℚ → List ℚ) (X : List (List ℚ))
    (centers : List (List ℚ)) : List ℕ × List (List ℚ) :=
  (assignLabels e X centers,
   snapToData X (X.map e)
     (optimalCenters (X.map e) (assignLabels e X centers) centers.length))

/-- Evaluation: labels assigned by centers `[[0], [5]]` on the 1-D dataset
`0, 2, 2, 3, 5, 8` (the sample at `3` is nearer to `5`). -/
theorem recomputeEval1 :
    assignLabels (fun v => v) [[0], [2], [2], [3], [5], [8]] [[0], [5]] =
      [0, 0, 0, 1, 1, 1] := by
  norm_num [assignLabels, argminIdx, argminAux, sqDistQ]

/-- Evaluation: the cluster means for those labels. -/
theorem recomputeEval2 :
    optimalCenters ([[0], [2], [2], [3], [5], [8]] : List (List ℚ))
      [0, 0, 0, 1, 1, 1] 2 = [[4 / 3], [16 / 3]] := by
  norm_num [optimalCenters, meanVec, clusterPoints, List.range_succ]

/-- Evaluation: snapping those means moves the first center from `0` to `2`. -/
theorem recomputeEval3 :
    snapToData [[0], [2], [2], [3], [5], [8]] [[0], [2], [2], [3], [5], [8]]
      [[4 / 3], [16 / 3]] = [[2], [5]] := by
  norm_num [snapToData, argminIdx, argminAux, sqDistQ]

/-- Evaluation: labels assigned by the snapped centers `[[2], [5]]` — the
sample at `3` now joins cluster 0. -/
theorem recomputeEval4 :
    assignLabels (fun v => v) [[0], [2], [2], [3], [5], [8]] [[2], [5]] =
      [0, 0, 0, 0, 1, 1] := by
  norm_num [assignLabels, argminIdx, argminAux, sqDistQ]

/-- First recompute on the counterexample dataset. -/
theorem recomputeEvalFirst :
    recompute (fun v => v) [[0], [2], [2], [3], [5], [8]] [[0], [5]] =
      ([0, 0, 0, 1, 1, 1], [[2], [5]]) := by
  rw [recompute, recomputeEval1]
  simp only [List.map_id']
  rw [show (([[0], [5]] : List (List ℚ)).length) = 2 from rfl,
    recomputeEval2, recomputeEval3]

/-- Second recompute on the counterexample dataset: the labels change. -/
theorem recomputeEvalSecond :
    recompute (fun v => v) [[0], [2], [2], [3], [5], [8]] [[2], [5]] =
      ([0, 0, 0, 0, 1, 1], [[2], [5]]) := by
  rw [recompute, recomputeEval4]
  simp only [List.map_id']
  rw [show (([[2], [5]] : List (List ℚ)).length) = 2 from rfl]
  rw [show optimalCenters ([[0], [2], [2], [3], [5], [8]] : List (List ℚ))
      [0, 0, 0, 0, 1, 1] 2 = [[7 / 4], [13 / 2]] from by
    norm_num [optimalCenters, meanVec, clusterPoints, List.range_succ]]
  rw [show snapToData [[0], [2], [2], [3], [5], [8]]
      [[0], [2], [2], [3], [5], [8]] [[7 / 4], [13 / 2]] = [[2], [5]] from by
    norm_num [snapToData, argminIdx, argminAux, sqDistQ]]

/-- C9 counterexample: with the identity autoencoder on the 1-D dataset
`0, 2, 2, 3, 5, 8` and centers `[[0], [5]]`, applying the full-pass
recompute twice yields labels `[0,0,0,0,1,1]`, different from the labels
`[0,0,0,1,1,1]` of a single application: the recompute is one step of a
k-means-like iteration and is not idempotent. -/
theorem recompute_twice_ne :
    (recompute (fun v => v) [[0], [2], [2], [3], [5], [8]]
        ((recompute (fun v => v) [[0], [2], [2], [3], [5], [8]] [[0], [5]]).2)).1 ≠
      (recompute (fun v => v) [[0], [2], [2], [3], [5], [8]] [[0], [5]]).1 := by
  rw [recomputeEvalFirst]
  show (recompute (fun v => v) [[0], [2], [2], [3], [5], [8]] [[2], [5]]).1 ≠ _
  rw [recomputeEvalSecond]
  decide

/-- C9 (amended): the recompute is idempotent exactly under stability of the
reassignment — if assigning labels with the recomputed centers reproduces the
recomputed labels, the second recompute returns identical labels and
centers. -/
theorem recompute_idem_of_stable (e : List ℚ → List ℚ)
    (X centers : List (List ℚ))
    (hstable : assignLabels e X (recompute e X centers).2 =
      (recompute e X centers).1) :
    recompute e X ((recompute e X centers).2) = recompute e X centers := by
  have hlen : (recompute e X centers).2.length = centers.length := by
    simp [recompute, snapToData, optimalCenters]
  have h1 : (recompute e X centers).1 = assignLabels e X centers := rfl
  have hfst : (recompute e X ((recompute e X centers).2)).1 =
      (recompute e X centers).1 := hstable
  have hsnd : (recompute e X ((recompute e X centers).2)).2 =
      (recompute e X centers).2 := by
    show snapToData X (X.map e)
      (optimalCenters (X.map e) (assignLabels e X ((recompute e X centers).2))
        ((recompute e X centers).2).length) = _
    rw [hstable, hlen, h1]
    rfl
  exact Prod.ext hfst hsnd

/-- Evaluation for the witness: the configuration `X = [[0], [10]]` with
centers `[[0], [10]]` is stable under reassignment. -/
theorem recomputeStable0 :
    assignLabels (fun v => v) [[0], [10]]
        ((recompute (fun v => v) [[0], [10]] [[0], [10]]).2) =
      (recompute (fun v => v) [[0], [10]] [[0], [10]]).1 := by
  norm_num [recompute, assignLabels, snapToData, optimalCenters, meanVec,
    clusterPoints, argminIdx, argminAux, sqDistQ, List.range_succ]

/-- Witness for `recompute_idem_of_stable` at the stable configuration. -/
theorem recompute_idem_of_stable_w :
    (assignLabels (fun v => v) [[0], [10]]
        ((recompute (fun v => v) [[0], [10]] [[0], [10]]).2) =
      (recompute (fun v => v) [[0], [10]] [[0], [10]]).1) ∧
    recompute (fun v => v) [[0], [10]]
        ((recompute (fun v => v) [[0], [10]] [[0], [10]]).2) =
      recompute (fun v => v) [[0], [10]] [[0], [10]] :=
  ⟨recomputeStable0,
    recompute_idem_of_stable (fun v => v) [[0], [10]] [[0], [10]] recomputeStable0⟩

/-! ### Cluster-loss normalization term (lines 254-263)

```
squared_center_diffs = squared_euclidean_distance(embedded_centers, embedded_centers)
mask = torch.where(squared_center_diffs != 0)
masked_center_diffs = squared_center_diffs[mask[0], mask[1]]
sqrt_masked_center_diffs = masked_center_diffs.sqrt()
masked_center_diffs_std = sqrt_masked_center_diffs.std() if len(sqrt_masked_center_diffs) > 2 else 0
```
The square root is kept abstract as a parameter `r : ℚ → ℚ` with `r 0 = 0`
(float `sqrt` is irrational in general; the claim only depends on which
branch is taken and on `sqrt 0 = 0`).  `torch.std` is the square root of the
unbiased sample variance. -/

theorem sqDistQ_comm : ∀ u v : List ℚ, sqDistQ u v = sqDistQ v u := by
  intro u
  induction u with
  | nil => intro v; cases v <;> simp [sqDistQ]
  | cons x u ih =>
    intro v
    cases v with
    | nil => simp [sqDistQ]
    | cons y v =>
      simp only [sqDistQ, List.zipWith_cons_cons, List.map_cons, List.sum_cons]
      have h := ih v
      simp only [sqDistQ] at h
      rw [h]
      ring_nf

theorem sqDistQ_self : ∀ u : List ℚ, sqDistQ u u = 0 := by
  intro u
  induction u with
  | nil => simp [sqDistQ]
  | cons x u ih =>
    simp only [sqDistQ, List.zipWith_cons_cons, List.map_cons, List.sum_cons]
    simp only [sqDistQ] at ih
    rw [ih, sub_self, mul_zero, add_zero]

theorem sum_map_ite {α : Type} (p : α → Bool) : ∀ l : List α,
    (l.map (fun a => if p a = true then (1 : ℕ) else 0)).sum = l.countP p := by
  intro l
  induction l with
  | nil => simp
  | cons c t ih => simp [List.countP_cons, ih]; omega

/-- Handshake argument: summing, over every row of a square relation that is
symmetric and irreflexive, the number of columns related to it, gives an even
total. -/
theorem even_sum_countP (q : List ℚ → List ℚ → Bool)
    (hsym : ∀ a b, q a b = q b a) (hirr : ∀ a, q a a = false) :
    ∀ l : List (List ℚ), Even ((l.map (fun a => l.countP (q a))).sum) := by
  intro l
  induction l with
  | nil => simp
  | cons c t ih =>
    simp only [List.map_cons, List.sum_cons]
    have h1 : (c :: t).countP (q c) = t.countP (q c) := by
      rw [List.countP_cons, hirr c]; simp
    have h2 : t.map (fun a => (c :: t).countP (q a)) =
        t.map (fun a => t.countP (q a) + if q a c = true then 1 else 0) := by
      apply List.map_congr_left
      intro a _
      rw [List.countP_cons]
    rw [h1, h2, List.sum_map_add, sum_map_ite]
    have h4 : t.countP (fun a => q a c) = t.countP (q c) :=
      List.countP_congr (fun a _ => by rw [hsym a c])
    rw [h4]
    obtain ⟨k, hk⟩ := ih
    exact ⟨t.countP (q c) + k, by omega⟩

/-- The row-major non-zero entries of
`squared_euclidean_distance(embedded_centers, embedded_centers)`
(`torch.where(squared_center_diffs != 0)` selects in row-major order). -/
def maskedCenterDiffs (cs : List (List ℚ)) : List ℚ :=
  ((cs.map (fun a => cs.map (fun b => sqDistQ a b))).flatten).filter
    (fun x => decide (x ≠ 0))

/-- Every value occurs an even number of times among the masked entries:
the matrix is symmetric with zero diagonal, so non-zero entries pair up. -/
theorem maskedCount_even (cs : List (List ℚ)) (x : ℚ) :
    Even ((maskedCenterDiffs cs).count x) := by
  by_cases hx : x = 0
  · subst hx
    have hnm : (0 : ℚ) ∉ maskedCenterDiffs cs := by
      intro hmem
      rcases List.mem_filter.mp hmem with ⟨_, hp⟩
      simp at hp
    rw [List.count_eq_zero.mpr hnm]
    exact even_zero
  · rw [maskedCenterDiffs, List.count_filter (by simp [hx])]
    rw [List.count_flatten, List.map_map]
    have hc : (List.count x ∘ fun a => cs.map (fun b => sqDistQ a b)) =
        fun a => cs.countP (fun b => sqDistQ a b == x) := by
      funext a
      simp only [Function.comp_apply, List.count_eq_countP, List.countP_map]
      rfl
    rw [hc]
    exact even_sum_countP (fun a b => sqDistQ a b == x)
      (fun a b => by
        show (sqDistQ a b == x) = (sqDistQ b a == x)
        rw [sqDistQ_comm])
      (fun a => by
        show (sqDistQ a a == x) = false
        rw [sqDistQ_self]
        exact beq_eq_false_iff_ne.mpr (Ne.symm hx)) cs

/-- A two-element list in which every value has even multiplicity consists of
one value twice. -/
theorem masked_pair {l : List ℚ} (h2 : l.length = 2)
    (hev : ∀ x, Even (l.count x)) : ∃ a, l = [a, a] := by
  have hab : ∃ a b, l = [a, b] := by
    rcases l with _ | ⟨a, t1⟩
    · simp at h2
    · rcases t1 with _ | ⟨b, t2⟩
      · simp at h2
      · rcases t2 with _ | ⟨c, t3⟩
        · exact ⟨a, b, rfl⟩
        · simp at h2
  obtain ⟨a, b, rfl⟩ := hab
  refine ⟨a, ?_⟩
  by_cases hba : b = a
  · rw [hba]
  · exfalso
    have h := hev a
    simp [List.count_cons, hba] at h

/-- `torch.mean` of a list of values. -/
def listMean (l : List ℚ) : ℚ := l.sum / (l.length : ℚ)

/-- The square of `torch.std` (unbiased, default correction 1). -/
def sampleVar (l : List ℚ) : ℚ :=
  (l.map (fun x => (x - listMean l) * (x - listMean l))).sum /
    ((l.length : ℚ) - 1)

theorem sampleVar_pair (y : ℚ) : sampleVar [y, y] = 0 := by
  have hm : listMean [y, y] = y := by
    simp [listMean]
  simp [sampleVar, hm]

/-- Lines 257-260 as the code writes them: the standard deviation
`r (sampleVar ...)` of the square-rooted masked distances is used when more
than 2 masked entries exist, and the literal `0` otherwise. -/
def stdTermCode (r : ℚ → ℚ) (cs : List (List ℚ)) : ℚ :=
  if 2 < (maskedCenterDiffs cs).length then
    r (sampleVar ((maskedCenterDiffs cs).map r))
  else 0

/-- The same term as the spec words it: zero when fewer than 2 non-zero
inter-center distances exist, the standard deviation whenever 2 or more
exist. -/
def stdTermSpec (r : ℚ → ℚ) (cs : List (List ℚ)) : ℚ :=
  if 2 ≤ (maskedCenterDiffs cs).length then
    r (sampleVar ((maskedCenterDiffs cs).map r))
  else 0

/-- C8: for every center configuration and every square-root operation with
`r 0 = 0`, the normalization term the code computes equals the term the spec
describes.  The two differ only in the boundary `len == 2`, and there the
masked entries are two equal values (symmetry of the distance matrix), whose
standard deviation is the `0` the code uses. -/
theorem stdTerm_code_eq_spec (r : ℚ → ℚ) (hr : r 0 = 0) (cs : List (List ℚ)) :
    stdTermCode r cs = stdTermSpec r cs := by
  rcases lt_trichotomy (maskedCenterDiffs cs).length 2 with h | h | h
  · rw [stdTermCode, stdTermSpec, if_neg (by omega), if_neg (by omega)]
  · obtain ⟨a, ha⟩ := masked_pair h (maskedCount_even cs)
    rw [stdTermCode, stdTermSpec, if_neg (by omega), if_pos (by omega), ha]
    simp only [List.map_cons, List.map_nil]
    rw [sampleVar_pair, hr]
  · rw [stdTermCode, stdTermSpec, if_pos h, if_pos (by omega)]

/-- Witness for `stdTerm_code_eq_spec`: the identity as square root
(`id 0 = 0`) and two distinct 1-D centers, the configuration with exactly
two masked entries. -/
theorem stdTerm_code_eq_spec_w :
    (fun x : ℚ => x) 0 = 0 ∧
    stdTermCode (fun x => x) [[0], [3]] = stdTermSpec (fun x => x) [[0], [3]] :=
  ⟨rfl, stdTerm_code_eq_spec (fun x => x) rfl [[0], [3]]⟩

end ClustPyVerify
